import Mathlib

/-!
Verification development for the ATCA-DMOEA driver (`main_code.ipynb`).

The source is a Python script built on numpy / sklearn / pymoo.  We shallow-embed
the repository's own logic over exact rationals:

* numpy 2-D arrays are modelled by `NpMat`: a list of rows together with an
  explicit column count, so that empty arrays keep their width (as numpy shapes do);
* numpy floats are modelled by `ℚ` (the development never needs transcendental
  values of the repository's own code paths; `compute_ms` needs `Real.sqrt` and is
  the one `ℝ`-valued definition);
* external library routines that the script only consumes (sklearn's
  `rbf_kernel`, `np.linalg.inv`, `np.linalg.eigh`, pymoo's `NonDominatedSorting`,
  and the random draws of `np.random.uniform` / `np.random.choice`) are modelled
  as oracle parameters constrained by their documented shape contracts, since the
  spec treats them as external collaborators;
* a Python exception (e.g. a `np.vstack` shape mismatch or a broadcast error)
  is modelled by `Option`: `none` means the step raises and the run aborts.
-/

/-- Rows of a rational matrix. -/
abbrev Row : Type := List ℚ

/-- Model of a numpy 2-D float array: explicit column count plus the rows.
The explicit `cols` field keeps the width of an empty array, exactly as a numpy
shape `(0, c)` does; the 1-D empty array `np.array([])` is modelled as `cols = 0`,
which is observationally equivalent in every stacking operation of this script. -/
structure NpMat where
  cols : ℕ
  data : List Row
deriving DecidableEq

/-- Well-formedness: each row has exactly `cols` entries. -/
def NpMat.WF (A : NpMat) : Prop := ∀ r ∈ A.data, r.length = A.cols

/-- Model of `np.vstack((A, B))`: succeeds exactly when the widths agree,
otherwise numpy raises a `ValueError` (modelled by `none`). -/
def npVstack (A B : NpMat) : Option NpMat :=
  if A.cols = B.cols then some ⟨A.cols, A.data ++ B.data⟩ else none

/-- Model of `np.eye(n)`. -/
def npEye (n : ℕ) : NpMat :=
  ⟨n, (List.range n).map (fun i => (List.range n).map (fun j => if i = j then (1 : ℚ) else 0))⟩

/-- Model of `np.ones((n, n))`. -/
def npOnes (n : ℕ) : NpMat :=
  ⟨n, (List.range n).map (fun _ => (List.range n).map (fun _ => (1 : ℚ)))⟩

/-- Scalar multiple of a matrix. -/
def npSmul (c : ℚ) (A : NpMat) : NpMat :=
  ⟨A.cols, A.data.map (List.map (fun x => c * x))⟩

/-- Entrywise sum of two matrices of identical shape (the only way the script
uses matrix addition). -/
def npAdd (A B : NpMat) : NpMat :=
  ⟨A.cols, List.zipWith (List.zipWith (· + ·)) A.data B.data⟩

/-- Entrywise difference, used only for the (dead) centering matrix `H`. -/
def npSub (A B : NpMat) : NpMat :=
  ⟨A.cols, List.zipWith (List.zipWith (· - ·)) A.data B.data⟩

/-- Transpose, reading entry `(i, j)` with a default of `0` outside the data. -/
def npTranspose (A : NpMat) : NpMat :=
  ⟨A.data.length, (List.range A.cols).map (fun j => A.data.map (fun r => r.getD j 0))⟩

/-- Dot product of two rows. -/
def dotQ (x y : Row) : ℚ := (List.zipWith (· * ·) x y).sum

/-- Matrix product `A @ B`. -/
def npMatmul (A B : NpMat) : NpMat :=
  ⟨B.cols, A.data.map (fun ra => (npTranspose B).data.map (fun cb => dotQ ra cb))⟩

/-- Model of `np.random.uniform(xl, xu, (rows, cols))`: numpy broadcasts the
bound vectors against the requested shape, which raises unless the bounds have
length `cols` (or length 1).  The drawn numbers are supplied by the tape
`t i j`; only their count and arrangement matter to the verified claims. -/
def npUniform (xl xu : Row) (rows cols : ℕ) (t : ℕ → ℕ → ℚ) : Option NpMat :=
  if xl.length = cols ∨ xl.length = 1 then
    some ⟨cols, (List.range rows).map (fun i => (List.range cols).map (fun j => t i j))⟩
  else none

/-- Ascending argsort, the model of `np.argsort(key)`: the positions
`0, …, key.length - 1` sorted by their key values.  numpy's quicksort leaves the
order of tied keys unspecified; we fix one total sort, which agrees with numpy
whenever the keys are distinct and is immaterial to every verified property. -/
def argsortAsc (key : List ℚ) : List ℕ :=
  @List.insertionSort ℕ (fun i j => key.getD i 0 ≤ key.getD j 0)
    (fun _ _ => inferInstance) (List.range key.length)

/-- Model of `np.argsort(-key)` for a rational key: argsort of the negated key. -/
def argsortDescQ (key : List ℚ) : List ℕ := argsortAsc (key.map (fun x => -x))

/-- Model of `np.argsort(-key)` for a key that may contain `np.inf`
(crowding distances live in `WithTop ℚ`): negating and sorting ascending is
sorting the original key descending, with `⊤` (infinity) first. -/
def argsortDescW (key : List (WithTop ℚ)) : List ℕ :=
  @List.insertionSort ℕ (fun i j => key.getD j 0 ≤ key.getD i 0)
    (fun _ _ => inferInstance) (List.range key.length)

/-- Column `m` of the objective matrix `F` (source expression `F[:, m]`). -/
def colF (F : List Row) (m : ℕ) : List ℚ := F.map (fun r => r.getD m 0)

/-- The argsort of column `m`, `sorted_indices` in `crowding_distance`. -/
def argsortCol (F : List Row) (m : ℕ) : List ℕ := argsortAsc (colF F m)

/-- Body of the `for m in range(n_obj)` loop of `crowding_distance`
(`main_code.ipynb` lines 25-36): set the two extreme points of this objective to
infinity, then accumulate the normalised gap for each interior point, skipping
the whole accumulation when the objective's range is zero. -/
def cd_pass (key : List ℚ) (dist : List (WithTop ℚ)) : List (WithTop ℚ) :=
  let n := key.length
  let s := argsortAsc key
  let f_min := key.getD (s.getD 0 0) 0
  let f_max := key.getD (s.getD (n - 1) 0) 0
  let d1 := (dist.set (s.getD 0 0) ⊤).set (s.getD (n - 1) 0) ⊤
  (List.range' 1 (n - 2)).foldl
    (fun d i =>
      if f_max - f_min = 0 then d
      else d.set (s.getD i 0)
        (d.getD (s.getD i 0) 0 +
          (((key.getD (s.getD (i + 1) 0) 0 - key.getD (s.getD (i - 1) 0) 0) /
              (f_max - f_min) : ℚ) : WithTop ℚ)))
    d1

/-- Model of `crowding_distance(F)` (`main_code.ipynb` lines 21-38): start from
`np.zeros(n_points)` and run one `cd_pass` per objective.  Infinite distances are
`⊤ : WithTop ℚ`, matching `np.inf` (in particular `inf + finite = inf`). -/
def crowding_distance (F : List Row) : List (WithTop ℚ) :=
  (List.range ((F.headD []).length)).foldl
    (fun dist m => cd_pass (colF F m) dist)
    (List.replicate F.length (0 : WithTop ℚ))

/-- Column minimum, the model of `np.min(F, axis=0)[k]` (callers pass nonempty `F`). -/
def colMin (F : List Row) (k : ℕ) : ℚ :=
  match F with
  | [] => 0
  | r :: rs => (rs.map (fun s => s.getD k 0)).foldl min (r.getD k 0)

/-- Column maximum, the model of `np.max(F, axis=0)[k]`. -/
def colMax (F : List Row) (k : ℕ) : ℚ :=
  match F with
  | [] => 0
  | r :: rs => (rs.map (fun s => s.getD k 0)).foldl max (r.getD k 0)

/-- Model of `compute_ms(F, true_pf)` (`main_code.ipynb` lines 63-79): per
objective, the squared ratio of range overlap to true range (zero when the true
range is below the `1e-6` threshold), averaged and square-rooted. -/
noncomputable def compute_ms (F true_pf : List Row) : ℝ :=
  let n_obj := (F.headD []).length
  let comps := (List.range n_obj).map (fun k =>
    let numerator := min (colMax true_pf k) (colMax F k) - max (colMin true_pf k) (colMin F k)
    let denominator := colMax true_pf k - colMin true_pf k
    if |denominator| < 1 / 1000000 then (0 : ℚ) else (numerator / denominator) ^ 2)
  Real.sqrt (((comps.sum / (n_obj : ℚ)) : ℚ) : ℝ)

/-- Model of `select_subset(saved, problem, max_elements)` (`main_code.ipynb`
lines 171-189).  `evalF` is the current environment's evaluation function
(`problem._evaluate` on a single row).  The empty case returns `np.array([])`,
modelled as the width-0 empty matrix. -/
def select_subset (saved : List Row) (evalF : Row → Row) (max_elements : ℕ) : NpMat :=
  match saved with
  | [] => ⟨0, []⟩
  | v :: _ =>
    if saved.length ≤ max_elements then ⟨v.length, saved⟩
    else
      let F_saved := saved.map evalF
      let sums := F_saved.map List.sum
      let best_indices := (argsortAsc sums).take max_elements
      ⟨v.length, best_indices.map (fun i => saved.getD i [])⟩

/-- Random draws of the script, as an oracle: `tape1`, `tape2`, `tapeF` feed the
three `np.random.uniform` calls of a step, and `choice n k` models
`np.random.choice(n, size=k, replace=False)`. -/
structure RandOracle where
  tape1 : ℕ → ℕ → ℚ
  tape2 : ℕ → ℕ → ℚ
  tapeF : ℕ → ℕ → ℚ
  choice : ℕ → ℕ → List ℕ

/-- Contract of `np.random.choice(n, size=k, replace=False)`: whenever `k ≤ n`
it returns `k` distinct indices below `n`. -/
def RandOracle.WF (r : RandOracle) : Prop :=
  ∀ n k, k ≤ n →
    (r.choice n k).length = k ∧ (r.choice n k).Nodup ∧ ∀ i ∈ r.choice n k, i < n

/-- Model of `save_elite_solutions(problem, var, obj, max_save, solutions,
max_per_problem)` (`main_code.ipynb` lines 193-208).  The unused `problem` and
`obj` parameters are dropped.  Returns the new archive contents (the source
writes them back with `solutions[:] = combined`). -/
def save_elite_solutions (rnd : RandOracle) (var : List Row) (max_save : ℕ)
    (solutions : List Row) (max_per_problem : ℕ) : List Row :=
  let current_solutions := var
  let current_elites :=
    if max_per_problem < current_solutions.length then
      (rnd.choice current_solutions.length max_per_problem).map
        (fun i => current_solutions.getD i [])
    else current_solutions
  let combined := solutions ++ current_elites
  if max_save < combined.length then
    (rnd.choice combined.length max_save).map (fun i => combined.getD i [])
  else combined

/-- External dense linear algebra consumed by `TCA`, as an oracle:
sklearn's `rbf_kernel` (whose transcendental values never matter to the claims),
`np.linalg.inv` and `np.linalg.eigh`. -/
structure LAOracle where
  rbf : NpMat → NpMat → ℚ → NpMat
  inv : NpMat → NpMat
  eigh : NpMat → List ℚ × NpMat

/-- Documented shape contracts of the external routines: `rbf_kernel(X1, X2, g)`
is `len(X1) × len(X2)`; `inv` and `eigh` preserve the shape of their (square)
argument, `eigh` returning one eigenvalue per row. -/
structure LAOracle.WF (o : LAOracle) : Prop where
  rbf_rows : ∀ X1 X2 g, (o.rbf X1 X2 g).data.length = X1.data.length
  rbf_cols : ∀ X1 X2 g, (o.rbf X1 X2 g).cols = X2.data.length
  inv_rows : ∀ A, (o.inv A).data.length = A.data.length
  inv_cols : ∀ A, (o.inv A).cols = A.cols
  eigh_vals : ∀ A, (o.eigh A).1.length = A.data.length
  eigh_vecs_rows : ∀ A, (o.eigh A).2.data.length = A.data.length

/-- Model of `TCA.fit_transform(Xs, Xt)` (`main_code.ipynb` lines 147-162) for
kernel type `'rbf'` (the only kernel `transfer_solutions` constructs).
`np.vstack` raising on a width mismatch is the `none` case; in exact arithmetic
`K + lamb*I` is invertible whenever `lamb > 0` (the kernel Gram matrix is
positive semidefinite), so `np.linalg.inv` is total here.  The centering matrix
`H` is computed and never used, exactly as in the source. -/
def TCA.fit_transform (o : LAOracle) (dim : ℕ) (lamb gamma : ℚ) (Xs Xt : NpMat) :
    Option NpMat :=
  match npVstack Xs Xt with
  | none => none
  | some X_all =>
    let ns := Xs.data.length
    let nt := Xt.data.length
    let K := o.rbf X_all X_all gamma
    let L : NpMat :=
      ⟨ns + nt, (List.range (ns + nt)).map (fun i => (List.range (ns + nt)).map (fun j =>
        if i < ns ∧ j < ns then 1 / ((ns : ℚ) ^ 2)
        else if ns ≤ i ∧ ns ≤ j then 1 / ((nt : ℚ) ^ 2)
        else -(1 / ((ns : ℚ) * (nt : ℚ)))))⟩
    let H := npSub (npEye (ns + nt)) (npSmul (1 / ((ns : ℚ) + (nt : ℚ))) (npOnes (ns + nt)))
    let Kc := npMatmul (o.inv (npAdd K (npSmul lamb (npEye (ns + nt))))) K
    let ev := o.eigh (npMatmul Kc (npMatmul L Kc))
    let idx := (argsortDescQ ev.1).take dim
    let W : NpMat := ⟨idx.length, ev.2.data.map (fun r => idx.map (fun j => r.getD j 0))⟩
    let Z := npMatmul K W
    let _ := H
    some ⟨Z.cols, Z.data.take ns⟩

/-- Model of `transfer_solutions(source_data, target_data)` (`main_code.ipynb`
lines 166-168): a TCA instance with `dim=10, kernel_type='rbf', lamb=1,
gamma=0.4`. -/
def transfer_solutions (o : LAOracle) (source_data target_data : NpMat) : Option NpMat :=
  TCA.fit_transform o 10 1 (2 / 5) source_data target_data

/-- Contract of pymoo's `NonDominatedSorting().do(F, only_non_dominated_front=True)`:
on a nonempty objective matrix it returns a nonempty duplicate-free list of row
indices (the first non-dominated front). -/
def NdsWF (nds : List Row → List ℕ) : Prop :=
  ∀ F : List Row, F ≠ [] → nds F ≠ [] ∧ (nds F).Nodup ∧ ∀ i ∈ nds F, i < F.length

/-- Driver constant `frequency_of_change = 10` (`main_code.ipynb` line 224). -/
def frequency_of_change : ℕ := 10

/-- Driver constant `severity = 10` (line 225). -/
def severity : ℕ := 10

/-- Driver constant `num_changes = 9` (line 226); the driver never reads it again. -/
def num_changes : ℕ := 9

/-- Driver constant `population_size = 100` (line 227). -/
def population_size : ℕ := 100

/-- Driver constant `max_save = 1000` (line 228). -/
def max_save : ℕ := 1000

/-- Driver constant `save_each_prob = 50` (line 229). -/
def save_each_prob : ℕ := 50

/-- Model of Python's `range(start, stop, step)` for a positive step. -/
def pyRange (start stop step : ℕ) : List ℕ :=
  (List.range ((stop - start + step - 1) / step)).map (fun k => start + step * k)

/-- Model of `time_steps` (line 232): `np.floor(i / frequency_of_change) / severity`
for `i in range(0, 201, 10)`. -/
def time_steps : List ℚ :=
  (pyRange 0 201 10).map
    (fun i => ((Int.floor ((i : ℚ) / (frequency_of_change : ℚ))) : ℚ) / (severity : ℚ))

/-- Model of the environment-change loop skeleton
`for idx, t_unit in enumerate(time_steps)` (line 254): one step execution per
element of `time_steps`, whatever the per-step work `stepFn` produces. -/
def driver_loop {α : Type} (stepFn : ℕ → ℚ → α) : List α :=
  ((List.range time_steps.length).zip time_steps).map (fun p => stepFn p.1 p.2)

/-- Model of the non-initial branch of the driver loop (`main_code.ipynb` lines
281-313), producing `full_sampling`, the seed population handed to the
optimizer.  `evalF` is `problem._evaluate` on one row, `ndsO` the pymoo
dominance filter, `n_var`/`xl`/`xu` the environment's dimensionality and bounds,
`saved` the archive.  `none` models an uncaught Python exception aborting the
step (broadcast or stacking shape mismatch). -/
def full_sampling (o : LAOracle) (rnd : RandOracle) (ndsO : List Row → List ℕ)
    (evalF : Row → Row) (n_var : ℕ) (xl xu : Row) (saved : List Row) : Option NpMat :=
  match npUniform xl xu 50 10 rnd.tape1 with
  | none => none
  | some random_target_population =>
    match transfer_solutions o (select_subset saved evalF 100) random_target_population with
    | none => none
    | some transferred_population =>
      let F_saved := saved.map evalF
      let nds := ndsO F_saved
      let nd_front : NpMat := ⟨(saved.headD []).length, nds.map (fun i => saved.getD i [])⟩
      let F_nd_front := nds.map (fun i => F_saved.getD i [])
      let cd := crowding_distance F_nd_front
      let selected_indices := (argsortDescW cd).take 40
      let best_40_population : NpMat :=
        ⟨nd_front.cols, selected_indices.map (fun i => nd_front.data.getD i [])⟩
      let chT := rnd.choice transferred_population.data.length
        (min 40 transferred_population.data.length)
      let selected_transferred : NpMat :=
        ⟨transferred_population.cols, chT.map (fun i => transferred_population.data.getD i [])⟩
      match npUniform xl xu 20 10 rnd.tape2 with
      | none => none
      | some random_20 =>
        match npVstack selected_transferred random_20 with
        | none => none
        | some stacked =>
          match npVstack stacked best_40_population with
          | none => none
          | some final_initial_population =>
            if population_size < final_initial_population.data.length then none
            else
              let n_needed := population_size - final_initial_population.data.length
              match npUniform xl xu n_needed n_var rnd.tapeF with
              | none => none
              | some random_fill => npVstack final_initial_population random_fill

/-- Oracle instance meeting the shape contracts, used to evaluate the model at
concrete inputs. -/
def trivialLA : LAOracle :=
  ⟨fun X1 X2 _ => ⟨X2.data.length, X1.data.map (fun _ => List.replicate X2.data.length 0)⟩,
   fun A => A,
   fun A => (List.replicate A.data.length 0, A)⟩

/-- Random oracle meeting the `np.random.choice` contract: zero tapes and the
first `k` indices. -/
def trivialRand : RandOracle :=
  ⟨fun _ _ => 0, fun _ _ => 0, fun _ _ => 0, fun _ k => List.range k⟩

/-- Dominance-filter instance meeting the pymoo contract: the first row alone. -/
def trivialNds : List Row → List ℕ := fun F => match F with | [] => [] | _ :: _ => [0]

/-- Specification-side definition following the claim's words
(`CrowdingRanker`, spec section 4.4): the contribution of one objective to an
interior point's crowding distance — `(next_value − previous_value) / (max −
min)` read off at sorted position `p` — with a zero range for the objective
contributing nothing. -/
def cdGapSpec (key : List ℚ) (p : ℕ) : ℚ :=
  let s := argsortAsc key
  let f_min := key.getD (s.getD 0 0) 0
  let f_max := key.getD (s.getD (key.length - 1) 0) 0
  if f_max - f_min = 0 then 0
  else (key.getD (s.getD (p + 1) 0) 0 - key.getD (s.getD (p - 1) 0) 0) / (f_max - f_min)

/-- Specification-side definition: the total crowding contribution of point `j`
in one objective, locating `j` in that objective's sort order. -/
def crowdingContribSpec (F : List Row) (m j : ℕ) : ℚ :=
  cdGapSpec (colF F m) ((argsortCol F m).indexOf j)

/-- Oracle realising one prescribed `np.random.choice(N, size=k0)` outcome. -/
def choiceOracle (N k0 : ℕ) (ids : List ℕ) : RandOracle :=
  ⟨fun _ _ => 0, fun _ _ => 0, fun _ _ => 0,
   fun n k => if n = N ∧ k = k0 then ids else List.range k⟩

/-! ### Basic list and shape lemmas -/

theorem getD_set_ne (l : List (WithTop ℚ)) (i j : ℕ) (v d : WithTop ℚ) (h : i ≠ j) :
    (l.set i v).getD j d = l.getD j d := by
  simp [List.getD_eq_getElem?_getD, List.getElem?_set_ne h]

theorem getD_set_self (l : List (WithTop ℚ)) (i : ℕ) (v d : WithTop ℚ) (h : i < l.length) :
    (l.set i v).getD i d = v := by
  simp [List.getD_eq_getElem?_getD, List.getElem?_set_self, h]

theorem foldl_id {α β : Type} (ps : List β) (d : α) : ps.foldl (fun x _ => x) d = d := by
  induction ps with
  | nil => rfl
  | cons p ps ih => simpa using ih

theorem map_getD_range {α : Type} (l : List α) (d : α) :
    (List.range l.length).map (fun i => l.getD i d) = l := by
  apply List.ext_getElem
  · simp
  · intro i h1 h2
    simp [List.getD_eq_getElem?_getD, List.getElem?_eq_getElem, h2]

theorem argsortAsc_perm (key : List ℚ) : (argsortAsc key).Perm (List.range key.length) :=
  List.perm_insertionSort _ _

theorem argsortAsc_length (key : List ℚ) : (argsortAsc key).length = key.length := by
  simpa using (argsortAsc_perm key).length_eq

theorem argsortAsc_nodup (key : List ℚ) : (argsortAsc key).Nodup :=
  ((argsortAsc_perm key).nodup_iff).mpr (List.nodup_range _)

theorem argsortAsc_mem_lt (key : List ℚ) (i : ℕ) (h : i ∈ argsortAsc key) : i < key.length := by
  have := (argsortAsc_perm key).mem_iff.mp h
  simpa using this

theorem argsortAsc_sorted (key : List ℚ) :
    List.Sorted (fun i j => key.getD i 0 ≤ key.getD j 0) (argsortAsc key) := by
  haveI h1 : IsTotal ℕ (fun i j => key.getD i 0 ≤ key.getD j 0) := ⟨fun _ _ => le_total _ _⟩
  haveI h2 : IsTrans ℕ (fun i j => key.getD i 0 ≤ key.getD j 0) := ⟨fun _ _ _ => le_trans⟩
  exact List.sorted_insertionSort _ _

theorem argsortDescW_perm (key : List (WithTop ℚ)) :
    (argsortDescW key).Perm (List.range key.length) :=
  List.perm_insertionSort _ _

theorem argsortDescW_length (key : List (WithTop ℚ)) :
    (argsortDescW key).length = key.length := by
  simpa using (argsortDescW_perm key).length_eq

theorem argsortDescW_mem_lt (key : List (WithTop ℚ)) (i : ℕ) (h : i ∈ argsortDescW key) :
    i < key.length := by
  have := (argsortDescW_perm key).mem_iff.mp h
  simpa using this

theorem argsortDescQ_length (key : List ℚ) : (argsortDescQ key).length = key.length := by
  simp [argsortDescQ, argsortAsc_length]

theorem npVstack_eq_some (A B : NpMat) (h : A.cols = B.cols) :
    npVstack A B = some ⟨A.cols, A.data ++ B.data⟩ := by
  simp [npVstack, h]

theorem npMatmul_rows (A B : NpMat) : (npMatmul A B).data.length = A.data.length := by
  simp [npMatmul]

theorem npMatmul_cols (A B : NpMat) : (npMatmul A B).cols = B.cols := rfl

theorem npMatmul_wf (A B : NpMat) : (npMatmul A B).WF := by
  intro r hr
  simp only [npMatmul, List.mem_map] at hr
  obtain ⟨ra, _, hr⟩ := hr
  simp [← hr, npTranspose, npMatmul]

theorem npAdd_rows (A B : NpMat) :
    (npAdd A B).data.length = min A.data.length B.data.length := by
  simp [npAdd]

theorem npSmul_rows (c : ℚ) (A : NpMat) : (npSmul c A).data.length = A.data.length := by
  simp [npSmul]

theorem npEye_rows (n : ℕ) : (npEye n).data.length = n := by
  simp [npEye]

theorem npUniform_eq_some (xl xu : Row) (rows cols : ℕ) (t : ℕ → ℕ → ℚ)
    (h : xl.length = cols) :
    npUniform xl xu rows cols t =
      some ⟨cols, (List.range rows).map (fun i => (List.range cols).map (fun j => t i j))⟩ := by
  simp [npUniform, h]

theorem npUniform_rows (xl xu : Row) (rows cols : ℕ) (t : ℕ → ℕ → ℚ) (M : NpMat)
    (h : npUniform xl xu rows cols t = some M) :
    M.data.length = rows ∧ M.cols = cols ∧ M.WF := by
  by_cases hc : xl.length = cols ∨ xl.length = 1
  · simp only [npUniform, if_pos hc, Option.some_inj] at h
    subst h
    refine ⟨by simp, rfl, ?_⟩
    intro r hr
    simp only [List.mem_map] at hr
    obtain ⟨i, _, hr⟩ := hr
    simp [← hr]
  · simp [npUniform, if_neg hc] at h

/-! ### Trivial oracle instances satisfy the contracts -/

theorem trivialLA_wf : trivialLA.WF := by
  constructor <;> intro A <;> simp [trivialLA]

theorem trivialRand_wf : trivialRand.WF := by
  intro n k hk
  refine ⟨by simp [trivialRand], by simp [trivialRand, List.nodup_range], ?_⟩
  intro i hi
  simp only [trivialRand, List.mem_range] at hi
  omega

theorem trivialNds_wf : NdsWF trivialNds := by
  intro F hF
  match F with
  | [] => exact absurd rfl hF
  | r :: rs => refine ⟨by simp [trivialNds], by simp [trivialNds], by simp [trivialNds]⟩

/-! ### C5: archive update without eviction -/

/-- C5: for every archive and new population with `len(new) <= cap_per_update`
and `len(new) + len(archive) <= global_cap`, `save_elite_solutions` produces
exactly the union (old archive followed by the new population) — no eviction. -/
theorem save_elite_no_eviction (rnd : RandOracle) (var solutions : List Row)
    (msave mper : ℕ) (h1 : var.length ≤ mper)
    (h2 : solutions.length + var.length ≤ msave) :
    save_elite_solutions rnd var msave solutions mper = solutions ++ var := by
  unfold save_elite_solutions
  have e1 : ¬ mper < var.length := Nat.not_lt.mpr h1
  have e2 : ¬ msave < (solutions ++ var).length := by
    rw [List.length_append]
    omega
  simp only [if_neg e1, if_neg e2]

/-- Witness for C5: from an empty archive, 10 new items under caps 1000/40
become exactly those 10 items. -/
theorem save_elite_no_eviction_witness :
    save_elite_solutions trivialRand
        [[(0 : ℚ)], [1], [2], [3], [4], [5], [6], [7], [8], [9]] 1000 [] 40
      = [] ++ [[(0 : ℚ)], [1], [2], [3], [4], [5], [6], [7], [8], [9]] :=
  save_elite_no_eviction trivialRand _ [] 1000 40 (by simp) (by simp)

/-! ### C4: number of loop iterations -/

/-- C4 counterexample: the environment-change loop runs once per entry of
`time_steps`, and that count (21) is not `num_changes + 1` (10) — the
`num_changes` constant is never consulted by the loop. -/
theorem driver_loop_count_ne_num_changes :
    (driver_loop (fun idx _ => idx)).length ≠ num_changes + 1 := by decide

/-- C4 amended: the loop executes its per-step work exactly once per element of
`time_steps`, i.e. 21 times (20 environment changes plus the initial one), for
any per-step work. -/
theorem driver_loop_runs_once_per_time_step {α : Type} (stepFn : ℕ → ℚ → α) :
    (driver_loop stepFn).length = time_steps.length ∧ time_steps.length = 21 := by
  refine ⟨?_, by decide⟩
  simp [driver_loop]

/-- Witness for C4's amended statement at a concrete per-step function. -/
theorem driver_loop_runs_once_per_time_step_witness :
    (driver_loop (fun _ t => t)).length = time_steps.length ∧ time_steps.length = 21 :=
  driver_loop_runs_once_per_time_step (fun _ t => t)

/-! ### C9: compute_ms is not bounded by 1 -/

/-- C9: `compute_ms` exceeds 1 on disjoint ranges: with the achieved set
`F = [[3],[10]]` and true front `[[0],[1]]` the ranges of objective 0 are
disjoint (true max 1 < achieved min 3), the negative overlap is squared, and
`compute_ms` returns 2 > 1. -/
theorem compute_ms_exceeds_one :
    colMax [[(0 : ℚ)], [(1 : ℚ)]] 0 < colMin [[(3 : ℚ)], [(10 : ℚ)]] 0 ∧
    compute_ms [[(3 : ℚ)], [(10 : ℚ)]] [[(0 : ℚ)], [(1 : ℚ)]] = 2 ∧
    (1 : ℝ) < compute_ms [[(3 : ℚ)], [(10 : ℚ)]] [[(0 : ℚ)], [(1 : ℚ)]] := by
  have e1 : colMin [[(0 : ℚ)], [(1 : ℚ)]] 0 = 0 := by norm_num [colMin, min_def]
  have e2 : colMax [[(0 : ℚ)], [(1 : ℚ)]] 0 = 1 := by norm_num [colMax, max_def]
  have e3 : colMin [[(3 : ℚ)], [(10 : ℚ)]] 0 = 3 := by norm_num [colMin, min_def]
  have e4 : colMax [[(3 : ℚ)], [(10 : ℚ)]] 0 = 10 := by norm_num [colMax, max_def]
  have h3 : compute_ms [[(3 : ℚ)], [(10 : ℚ)]] [[(0 : ℚ)], [(1 : ℚ)]] = Real.sqrt 4 := by
    rw [compute_ms]
    simp only [List.headD_cons, List.length_cons, List.length_nil, List.range_succ,
      List.range_zero, List.nil_append, List.map_cons, List.map_nil]
    rw [e1, e2, e3, e4]
    norm_num [min_def, max_def]
  have h4 : Real.sqrt 4 = 2 := by
    have h : (4 : ℝ) = 2 ^ 2 := by norm_num
    rw [h, Real.sqrt_sq (by norm_num : (0 : ℝ) ≤ 2)]
  refine ⟨by rw [e2, e3]; norm_num, by rw [h3, h4], by rw [h3, h4]; norm_num⟩

/-! ### C7: dimensions of the transfer output -/

/-- Shape of `TCA.fit_transform`: under the external routines' shape contracts,
stacking succeeds iff the widths agree, and the result has one row per source
vector and `min dim (ns + nt)` columns. -/
theorem fit_transform_shape (o : LAOracle) (h : o.WF) (dim : ℕ) (lamb gamma : ℚ)
    (Xs Xt : NpMat) (hc : Xs.cols = Xt.cols) :
    ∃ Z, TCA.fit_transform o dim lamb gamma Xs Xt = some Z ∧
      Z.data.length = Xs.data.length ∧
      Z.cols = min dim (Xs.data.length + Xt.data.length) ∧ Z.WF := by
  simp only [TCA.fit_transform, npVstack_eq_some Xs Xt hc]
  refine ⟨_, rfl, ?_, ?_, ?_⟩
  · rw [List.length_take, npMatmul_rows, h.rbf_rows]
    simp
  · simp only [npMatmul_cols]
    rw [List.length_take, argsortDescQ_length, h.eigh_vals, npMatmul_rows, npMatmul_rows,
      h.inv_rows, npAdd_rows, npSmul_rows, npEye_rows, h.rbf_rows]
    simp
  · intro r hr
    simp only [npMatmul] at hr
    rcases List.mem_map.mp (List.take_subset _ _ hr) with ⟨ra, hra, heq⟩
    rw [← heq]
    simp [npTranspose, npMatmul]

/-- C7 counterexample: with one source and one target vector and
`target_dim = 10`, the output has `min 10 (1+1) = 2` columns, not 10. -/
theorem fit_transform_cols_cex :
    (TCA.fit_transform trivialLA 10 1 (2 / 5) ⟨1, [[0]]⟩ ⟨1, [[1]]⟩).map NpMat.cols = some 2 ∧
    (2 : ℕ) ≠ 10 := by
  constructor
  · decide
  · decide

/-- C7 amended: `TCA.fit_transform` returns exactly `ns` rows (one per source
vector) and `min target_dim (ns + nt)` columns; the column count equals
`target_dim` exactly when `target_dim ≤ ns + nt` (as in the driver, where
`nt = 50`). -/
theorem fit_transform_output_dims (o : LAOracle) (h : o.WF) (dim : ℕ) (lamb gamma : ℚ)
    (Xs Xt : NpMat) (hc : Xs.cols = Xt.cols) :
    ∃ Z, TCA.fit_transform o dim lamb gamma Xs Xt = some Z ∧
      Z.data.length = Xs.data.length ∧
      Z.cols = min dim (Xs.data.length + Xt.data.length) ∧
      (dim ≤ Xs.data.length + Xt.data.length → Z.cols = dim) := by
  obtain ⟨Z, h1, h2, h3, _⟩ := fit_transform_shape o h dim lamb gamma Xs Xt hc
  exact ⟨Z, h1, h2, h3, fun hd => by rw [h3]; exact min_eq_left hd⟩

/-- Witness for C7's amended statement at concrete one-row inputs. -/
theorem fit_transform_output_dims_witness :
    ∃ Z, TCA.fit_transform trivialLA 10 1 (2 / 5) ⟨1, [[0]]⟩ ⟨1, [[1]]⟩ = some Z ∧
      Z.data.length = 1 ∧ Z.cols = min 10 2 ∧ (10 ≤ 2 → Z.cols = 10) := by
  have h := fit_transform_output_dims trivialLA trivialLA_wf 10 1 (2 / 5)
    ⟨1, [[0]]⟩ ⟨1, [[1]]⟩ rfl
  simpa using h

/-! ### Index-selection lemmas for the random-subset model -/

theorem sublist_exists_idx {α : Type} (d : α) {S L : List α} (h : S.Sublist L) :
    ∃ ids : List ℕ, ids.Pairwise (· < ·) ∧ (∀ i ∈ ids, i < L.length) ∧
      ids.map (fun i => L.getD i d) = S := by
  induction h with
  | slnil => exact ⟨[], by simp, by simp, by simp⟩
  | cons a h ih =>
    obtain ⟨ids, h1, h2, h3⟩ := ih
    refine ⟨ids.map (fun i => i + 1), ?_, ?_, ?_⟩
    · exact List.pairwise_map.mpr (h1.imp (fun hab => by omega))
    · intro i hi
      obtain ⟨j, hj, rfl⟩ := List.mem_map.mp hi
      have := h2 j hj
      simp only [List.length_cons]
      omega
    · rw [List.map_map, ← h3]
      apply List.map_congr_left
      intro j _
      simp [List.getD_cons_succ]
  | cons₂ a h ih =>
    obtain ⟨ids, h1, h2, h3⟩ := ih
    refine ⟨0 :: ids.map (fun i => i + 1), ?_, ?_, ?_⟩
    · refine List.pairwise_cons.mpr ⟨?_, List.pairwise_map.mpr (h1.imp (fun hab => by omega))⟩
      intro j hj
      obtain ⟨k, _, rfl⟩ := List.mem_map.mp hj
      omega
    · intro i hi
      rcases List.mem_cons.mp hi with rfl | hi
      · simp
      · obtain ⟨j, hj, rfl⟩ := List.mem_map.mp hi
        have := h2 j hj
        simp only [List.length_cons]
        omega
    · rw [List.map_cons, List.map_map, ← h3]
      refine congrArg₂ _ (by simp) ?_
      apply List.map_congr_left
      intro j _
      simp [List.getD_cons_succ]

theorem pairwise_lt_idx_map_sublist_aux {α : Type} (d : α) :
    ∀ (fuel : ℕ) (ids : List ℕ), ids.length ≤ fuel →
      ∀ (L : List α), ids.Pairwise (· < ·) → (∀ i ∈ ids, i < L.length) →
      (ids.map (fun i => L.getD i d)).Sublist L := by
  intro fuel
  induction fuel with
  | zero =>
    intro ids hlen L _ _
    have : ids = [] := List.eq_nil_of_length_eq_zero (Nat.le_zero.mp hlen)
    simp [this]
  | succ fuel ih =>
    intro ids hlen L hp hb
    match ids with
    | [] => simp
    | i :: ids =>
    have hlen' : (ids.map (fun j => j - (i + 1))).length ≤ fuel := by
      rw [List.length_map]
      simp only [List.length_cons] at hlen
      omega
    have hi : i < L.length := hb i (by simp)
    have hgt : ∀ j ∈ ids, i < j := (List.pairwise_cons.mp hp).1
    have hp' : ids.Pairwise (· < ·) := (List.pairwise_cons.mp hp).2
    have hmap : ids.map (fun j => L.getD j d)
        = (ids.map (fun j => j - (i + 1))).map (fun k => (L.drop (i + 1)).getD k d) := by
      rw [List.map_map]
      apply List.map_congr_left
      intro j hj
      have hij : i < j := hgt j hj
      have h1 : i + 1 + (j - (i + 1)) = j := by omega
      simp only [Function.comp_apply]
      rw [List.getD_eq_getElem?_getD, List.getD_eq_getElem?_getD, List.getElem?_drop, h1]
    have hsub : ((ids.map (fun j => j - (i + 1))).map
        (fun k => (L.drop (i + 1)).getD k d)).Sublist (L.drop (i + 1)) := by
      apply ih _ hlen'
      · refine List.pairwise_map.mpr (hp'.imp_of_mem ?_)
        intro a b ha _ hab
        have := hgt a ha
        omega
      · intro k hk
        obtain ⟨j, hj, rfl⟩ := List.mem_map.mp hk
        have := hb j (by simp [hj])
        rw [List.length_drop]
        have := hgt j hj
        omega
    have hh1 : i < (L.take (i + 1)).length := by
      rw [List.length_take]
      omega
    have hhead : L.getD i d ∈ L.take (i + 1) := by
      have h2 : (L.take (i + 1)).getD i d = L.getD i d := by
        rw [List.getD_eq_getElem _ _ hh1, List.getD_eq_getElem _ _ hi]
        simp [List.getElem_take]
      rw [← h2, List.getD_eq_getElem _ _ hh1]
      exact List.getElem_mem hh1
    have hfin := List.Sublist.append (List.singleton_sublist.mpr hhead) hsub
    rw [List.take_append_drop] at hfin
    rw [List.singleton_append] at hfin
    rw [← hmap] at hfin
    simpa using hfin

theorem pairwise_lt_idx_map_sublist {α : Type} (d : α) (ids : List ℕ) (L : List α)
    (hp : ids.Pairwise (· < ·)) (hb : ∀ i ∈ ids, i < L.length) :
    (ids.map (fun i => L.getD i d)).Sublist L :=
  pairwise_lt_idx_map_sublist_aux d ids.length ids le_rfl L hp hb

theorem nodup_idx_map_subperm {α : Type} [DecidableEq α] (d : α) (L : List α) (ids : List ℕ)
    (h1 : ids.Nodup) (h2 : ∀ i ∈ ids, i < L.length) :
    (ids.map (fun i => L.getD i d)).Subperm L := by
  have hperm : (List.insertionSort (fun a b => a ≤ b) ids).Perm ids :=
    List.perm_insertionSort _ _
  have hnd : (List.insertionSort (fun a b => a ≤ b) ids).Nodup := hperm.nodup_iff.mpr h1
  have hsort : List.Sorted (fun a b => a ≤ b) (List.insertionSort (fun a b => a ≤ b) ids) :=
    List.sorted_insertionSort _ _
  have hlt : (List.insertionSort (fun a b => a ≤ b) ids).Pairwise (fun a b => a < b) := by
    have hcomb := hsort.and hnd
    exact hcomb.imp (fun hab => lt_of_le_of_ne hab.1 hab.2)
  have hsub := pairwise_lt_idx_map_sublist d (List.insertionSort (fun a b => a ≤ b) ids) L hlt
    (fun i hi => h2 i (hperm.mem_iff.mp hi))
  exact ⟨_, hperm.map _, hsub⟩

/-! ### C1: archive capacity invariant and uniform-random eviction -/

theorem save_elite_length_le (rnd : RandOracle) (var sol : List Row) (msave mper : ℕ)
    (h : rnd.WF) :
    (save_elite_solutions rnd var msave sol mper).length ≤ msave := by
  simp only [save_elite_solutions]
  split <;> split <;> rename_i h1 h2 <;>
    first
      | (rw [List.length_map]; exact le_of_eq (h _ _ (Nat.le_of_lt h2)).1)
      | (exact Nat.not_lt.mp h2)

theorem save_elite_fold_length_le (msave mper : ℕ) :
    ∀ (steps : List (RandOracle × List Row)) (init : List Row),
      (∀ s ∈ steps, s.1.WF) → init.length ≤ msave →
      (steps.foldl (fun sol s => save_elite_solutions s.1 s.2 msave sol mper) init).length
        ≤ msave := by
  intro steps
  induction steps with
  | nil => intro init _ h; simpa using h
  | cons s steps ih =>
    intro init hwf _
    simp only [List.foldl_cons]
    exact ih _ (fun t ht => hwf t (by simp [ht]))
      (save_elite_length_le s.1 s.2 init msave mper (hwf s (by simp)))

theorem choiceOracle_wf (N k0 : ℕ) (ids : List ℕ) (hlen : ids.length = k0)
    (hnd : ids.Nodup) (hbnd : ∀ i ∈ ids, i < N) (hk0 : k0 ≤ N) :
    (choiceOracle N k0 ids).WF := by
  intro n k hk
  simp only [choiceOracle]
  by_cases hc : n = N ∧ k = k0
  · rw [if_pos hc]
    exact ⟨by rw [hlen, hc.2], hnd, fun i hi => by rw [hc.1]; exact hbnd i hi⟩
  · rw [if_neg hc]
    exact ⟨by simp, List.nodup_range _,
      fun i hi => lt_of_lt_of_le (List.mem_range.mp hi) hk⟩

/-- C1: starting from an empty archive, the archive size after any sequence of
`save_elite_solutions` calls never exceeds `max_save` (first conjunct); when an
insertion would exceed the cap, the retained archive has exactly `max_save`
entries and is a sub-multiset of the combined old-plus-new pool (second
conjunct); and eviction is uniform-random over the union, not priority-based:
every size-`max_save` sub-multiset of the combined pool is a possible outcome of
the random draw (third conjunct). -/
theorem save_elite_archive_spec (msave mper : ℕ) :
    (∀ steps : List (RandOracle × List Row), (∀ s ∈ steps, s.1.WF) →
      (steps.foldl (fun sol s => save_elite_solutions s.1 s.2 msave sol mper) []).length
        ≤ msave)
    ∧
    (∀ (rnd : RandOracle) (var sol : List Row), rnd.WF →
      msave < sol.length + min var.length mper →
      (save_elite_solutions rnd var msave sol mper).length = msave ∧
      (save_elite_solutions rnd var msave sol mper).Subperm (sol ++ var))
    ∧
    (∀ (var sol S : List Row), var.length ≤ mper → S.Sublist (sol ++ var) →
      S.length = msave → msave < sol.length + var.length →
      ∃ rnd : RandOracle, rnd.WF ∧ save_elite_solutions rnd var msave sol mper = S) := by
  refine ⟨?_, ?_, ?_⟩
  · intro steps hwf
    exact save_elite_fold_length_le msave mper steps [] hwf (by simp)
  · intro rnd var sol hwf hlt
    have hel : (if mper < var.length then
        (rnd.choice var.length mper).map (fun i => var.getD i []) else var).length
        = min var.length mper := by
      split
      case isTrue hc => rw [List.length_map, (hwf _ _ (Nat.le_of_lt hc)).1]; omega
      case isFalse hc => omega
    have helsub : (if mper < var.length then
        (rnd.choice var.length mper).map (fun i => var.getD i []) else var).Subperm var := by
      split
      case isTrue hc =>
        exact nodup_idx_map_subperm ([] : Row) var _ (hwf _ _ (Nat.le_of_lt hc)).2.1
          (hwf _ _ (Nat.le_of_lt hc)).2.2
      case isFalse hc => exact List.Subperm.refl _
    simp only [save_elite_solutions]
    have hcond : msave < (sol ++ (if mper < var.length then
        (rnd.choice var.length mper).map (fun i => var.getD i []) else var)).length := by
      rw [List.length_append, hel]
      exact hlt
    rw [if_pos hcond]
    constructor
    · rw [List.length_map, (hwf _ _ (Nat.le_of_lt hcond)).1]
    · have h1 := nodup_idx_map_subperm ([] : Row)
        (sol ++ (if mper < var.length then
          (rnd.choice var.length mper).map (fun i => var.getD i []) else var))
        (rnd.choice _ msave)
        (hwf _ _ (Nat.le_of_lt hcond)).2.1 (hwf _ _ (Nat.le_of_lt hcond)).2.2
      exact h1.trans ((List.subperm_append_left sol).mpr helsub)
  · intro var sol S hvar hS hSlen hlt
    obtain ⟨ids, hp, hbnd, hmap⟩ := sublist_exists_idx ([] : Row) hS
    have hidslen : ids.length = msave := by rw [← hSlen, ← hmap, List.length_map]
    have hidsnd : ids.Nodup := hp.imp (fun hab => Nat.ne_of_lt hab)
    have hmsle : msave ≤ (sol ++ var).length := by
      rw [List.length_append]
      omega
    refine ⟨choiceOracle (sol ++ var).length msave ids,
      choiceOracle_wf _ _ _ hidslen hidsnd hbnd hmsle, ?_⟩
    simp only [save_elite_solutions, choiceOracle]
    have h1 : ¬ mper < var.length := Nat.not_lt.mpr hvar
    rw [if_neg h1]
    have hcond : msave < (sol ++ var).length := by
      rw [List.length_append]
      exact hlt
    rw [if_pos hcond]
    simpa using hmap

/-- Witness for C1 at concrete archives: a two-step fold respecting the cap, a
concrete eviction of exact size, and a concrete prescribed subset being
realised. -/
theorem save_elite_archive_spec_witness :
    ((([(trivialRand, [[(1 : ℚ)], [2]])] : List (RandOracle × List Row)).foldl
        (fun sol s => save_elite_solutions s.1 s.2 1 sol 1) []).length ≤ 1)
    ∧ ((save_elite_solutions trivialRand [[(1 : ℚ)], [2]] 1 [[(0 : ℚ)]] 1).length = 1 ∧
       (save_elite_solutions trivialRand [[(1 : ℚ)], [2]] 1 [[(0 : ℚ)]] 1).Subperm
         ([[(0 : ℚ)]] ++ [[(1 : ℚ)], [2]]))
    ∧ (∃ rnd : RandOracle, rnd.WF ∧
        save_elite_solutions rnd [[(1 : ℚ)]] 1 [[(0 : ℚ)]] 40 = [[(0 : ℚ)]]) := by
  refine ⟨(save_elite_archive_spec 1 1).1 _ ?_,
    (save_elite_archive_spec 1 1).2.1 trivialRand _ _ trivialRand_wf (by decide),
    (save_elite_archive_spec 1 40).2.2 _ _ _ (by decide) (by decide) (by decide) (by decide)⟩
  intro s hs
  rw [List.mem_singleton] at hs
  rw [hs]
  exact trivialRand_wf

/-! ### C6: select_subset specification -/

theorem getD_map_sum (g : Row → Row) (l : List Row) (c : ℕ) (hc : c < l.length) :
    ((l.map g).map List.sum).getD c 0 = (g (l.getD c [])).sum := by
  rw [List.getD_eq_getElem _ _ (by simpa using hc), List.getD_eq_getElem _ _ hc]
  simp

/-- C6: `select_subset` returns the empty array on an empty archive; returns the
archive unchanged when `len(archive) <= max_elements`; otherwise evaluates every
archived vector under the current environment (`evalF`), and returns exactly
`max_elements` archive members forming a sub-multiset of the archive in which
every retained member's objective-value sum is at most that of every member left
out (objective-sum ranking ascending). -/
theorem select_subset_spec (evalF : Row → Row) (me : ℕ) (saved : List Row) :
    (select_subset [] evalF me = ⟨0, []⟩)
    ∧ (saved.length ≤ me → (select_subset saved evalF me).data = saved)
    ∧ (me < saved.length →
        (select_subset saved evalF me).data.length = me ∧
        ∃ rest, saved.Perm ((select_subset saved evalF me).data ++ rest) ∧
          ∀ x ∈ (select_subset saved evalF me).data, ∀ y ∈ rest,
            (evalF x).sum ≤ (evalF y).sum) := by
  refine ⟨rfl, ?_, ?_⟩
  · intro hle
    match saved with
    | [] => rfl
    | v :: vs =>
      simp only [select_subset]
      rw [if_pos hle]
  · intro hlt
    match saved, hlt with
    | v :: vs, hlt =>
    have hnle : ¬ (v :: vs).length ≤ me := by omega
    simp only [select_subset, if_neg hnle]
    have hsumslen : (((v :: vs).map evalF).map List.sum).length = (v :: vs).length := by
      simp
    have hslen : (argsortAsc (((v :: vs).map evalF).map List.sum)).length
        = (v :: vs).length := by
      rw [argsortAsc_length, hsumslen]
    refine ⟨?_, ?_⟩
    · rw [List.length_map, List.length_take, hslen]
      omega
    · refine ⟨((argsortAsc (((v :: vs).map evalF).map List.sum)).drop me).map
        (fun i => (v :: vs).getD i []), ?_, ?_⟩
      · have h1 : (argsortAsc (((v :: vs).map evalF).map List.sum)).Perm
            (List.range (v :: vs).length) := by
          have := argsortAsc_perm (((v :: vs).map evalF).map List.sum)
          rwa [hsumslen] at this
        have h2 := h1.map (fun i => (v :: vs).getD i [])
        rw [map_getD_range] at h2
        have hsplit : ((argsortAsc (((v :: vs).map evalF).map List.sum)).map
            (fun i => (v :: vs).getD i [])) =
            ((argsortAsc (((v :: vs).map evalF).map List.sum)).take me).map
              (fun i => (v :: vs).getD i []) ++
            ((argsortAsc (((v :: vs).map evalF).map List.sum)).drop me).map
              (fun i => (v :: vs).getD i []) := by
          rw [← List.map_append, List.take_append_drop]
        rw [hsplit] at h2
        exact h2.symm
      · intro x hx y hy
        obtain ⟨a, ha, rfl⟩ := List.mem_map.mp hx
        obtain ⟨b, hb, rfl⟩ := List.mem_map.mp hy
        have hst : List.Pairwise
            (fun i j => (((v :: vs).map evalF).map List.sum).getD i 0
              ≤ (((v :: vs).map evalF).map List.sum).getD j 0)
            (argsortAsc (((v :: vs).map evalF).map List.sum)) :=
          argsortAsc_sorted (((v :: vs).map evalF).map List.sum)
        have hall : List.Pairwise
            (fun i j => (((v :: vs).map evalF).map List.sum).getD i 0
              ≤ (((v :: vs).map evalF).map List.sum).getD j 0)
            ((argsortAsc (((v :: vs).map evalF).map List.sum)).take me ++
             (argsortAsc (((v :: vs).map evalF).map List.sum)).drop me) := by
          rw [List.take_append_drop]
          exact hst
        have hpw := (List.pairwise_append.mp hall).2.2
        have hrel := hpw a ha b hb
        have hamem : a ∈ argsortAsc (((v :: vs).map evalF).map List.sum) :=
          List.take_subset _ _ ha
        have hbmem : b ∈ argsortAsc (((v :: vs).map evalF).map List.sum) :=
          List.drop_subset _ _ hb
        have halt : a < (v :: vs).length := by
          have := argsortAsc_mem_lt _ a hamem
          rwa [hsumslen] at this
        have hblt : b < (v :: vs).length := by
          have := argsortAsc_mem_lt _ b hbmem
          rwa [hsumslen] at this
        rwa [getD_map_sum evalF _ a halt, getD_map_sum evalF _ b hblt] at hrel

/-- Witness for C6 at concrete archives: the empty case, an untouched two-element
archive under cap 5, and an over-cap archive reduced to its 2 lowest-sum
members. -/
theorem select_subset_spec_witness :
    (select_subset [] (fun v => v) 5 = ⟨0, []⟩)
    ∧ ((select_subset [[(1 : ℚ)], [2]] (fun v => v) 5).data = [[(1 : ℚ)], [2]])
    ∧ ((select_subset [[(1 : ℚ)], [2], [0]] (fun v => v) 2).data.length = 2 ∧
       ∃ rest, ([[(1 : ℚ)], [2], [0]] : List Row).Perm
           ((select_subset [[(1 : ℚ)], [2], [0]] (fun v => v) 2).data ++ rest) ∧
         ∀ x ∈ (select_subset [[(1 : ℚ)], [2], [0]] (fun v => v) 2).data, ∀ y ∈ rest,
           ((fun v => v) x).sum ≤ ((fun v => v) y).sum) :=
  ⟨(select_subset_spec (fun v => v) 5 []).1,
   (select_subset_spec (fun v => v) 5 [[(1 : ℚ)], [2]]).2.1 (by decide),
   (select_subset_spec (fun v => v) 2 [[(1 : ℚ)], [2], [0]]).2.2 (by decide)⟩

/-! ### Shape lemmas for the seed-population builder -/

theorem select_subset_cols (saved : List Row) (evalF : Row → Row) (me : ℕ) :
    (select_subset saved evalF me).cols = (saved.headD []).length := by
  match saved with
  | [] => rfl
  | v :: vs =>
    simp only [select_subset, List.headD_cons]
    split <;> rfl

theorem select_subset_rows (saved : List Row) (evalF : Row → Row) (me : ℕ)
    (h : saved ≠ []) :
    (select_subset saved evalF me).data.length = min saved.length me := by
  match saved with
  | [] => exact absurd rfl h
  | v :: vs =>
    simp only [select_subset]
    split
    case isTrue hc =>
      simp only []
      omega
    case isFalse hc =>
      simp only [List.length_map, List.length_take, argsortAsc_length, List.length_map]
      omega

theorem fit_transform_none (o : LAOracle) (dim : ℕ) (lamb gamma : ℚ) (Xs Xt : NpMat)
    (h : Xs.cols ≠ Xt.cols) :
    TCA.fit_transform o dim lamb gamma Xs Xt = none := by
  simp [TCA.fit_transform, npVstack, h]

theorem foldl_length_preserved {β : Type} (f : List (WithTop ℚ) → β → List (WithTop ℚ))
    (hf : ∀ d b, (f d b).length = d.length) :
    ∀ (ps : List β) (d : List (WithTop ℚ)), (ps.foldl f d).length = d.length := by
  intro ps
  induction ps with
  | nil => intro d; rfl
  | cons p ps ih =>
    intro d
    rw [List.foldl_cons, ih, hf]

theorem cd_pass_length (key : List ℚ) (dist : List (WithTop ℚ)) :
    (cd_pass key dist).length = dist.length := by
  simp only [cd_pass]
  rw [foldl_length_preserved]
  · simp
  · intro d b
    split
    · rfl
    · simp

theorem crowding_distance_length (F : List Row) :
    (crowding_distance F).length = F.length := by
  simp only [crowding_distance]
  rw [foldl_length_preserved]
  · simp
  · intro d b
    exact cd_pass_length _ _

/-! ### C10: the non-initial seed construction assumes n_var = 10 -/

/-- C10: for every environment whose decision-space dimensionality differs from
the hardcoded width 10 of the random draws (with the environment's bounds and
archive rows of width `n_var`), the non-initial seed construction raises a shape
error (broadcast failure of the `(50, 10)` draw, or stacking failure against the
width-10 components) and produces no seed population. -/
theorem full_sampling_requires_nvar10 (o : LAOracle) (rnd : RandOracle)
    (ndsO : List Row → List ℕ) (evalF : Row → Row) (n_var : ℕ) (xl xu : Row)
    (saved : List Row) (h10 : n_var ≠ 10) (hxl : xl.length = n_var)
    (hw : ∀ v ∈ saved, v.length = n_var) :
    full_sampling o rnd ndsO evalF n_var xl xu saved = none := by
  by_cases h1 : xl.length = 1
  · have hu : npUniform xl xu 50 10 rnd.tape1 = some ⟨10, (List.range 50).map
        (fun i => (List.range 10).map (fun j => rnd.tape1 i j))⟩ := by
      simp [npUniform, h1]
    have hcols : (select_subset saved evalF 100).cols ≠ 10 := by
      rw [select_subset_cols]
      cases saved with
      | nil => simp
      | cons v vs =>
        simp only [List.headD_cons]
        rw [hw v (by simp), ← hxl, h1]
        omega
    have ht : transfer_solutions o (select_subset saved evalF 100)
        ⟨10, (List.range 50).map (fun i => (List.range 10).map (fun j => rnd.tape1 i j))⟩
        = none := fit_transform_none o 10 1 (2 / 5) _ _ hcols
    simp only [full_sampling, hu, ht]
  · have hcond : ¬ (xl.length = 10 ∨ xl.length = 1) := by
      rw [hxl] at h1 ⊢
      intro hor
      rcases hor with h | h
      · exact h10 h
      · exact h1 h
    have hu : npUniform xl xu 50 10 rnd.tape1 = none := by
      unfold npUniform
      rw [if_neg hcond]
    simp only [full_sampling, hu]

/-- Witness for C10 at a concrete 3-variable environment. -/
theorem full_sampling_requires_nvar10_witness :
    full_sampling trivialLA trivialRand trivialNds (fun v => v) 3
      (List.replicate 3 0) (List.replicate 3 0) [[0, 0, 0]] = none :=
  full_sampling_requires_nvar10 trivialLA trivialRand trivialNds (fun v => v) 3
    (List.replicate 3 0) (List.replicate 3 0) [[0, 0, 0]]
    (by decide) (by decide) (by decide)

/-! ### C3: a transfer failure propagates; there is no fallback -/

/-- C3 amended: the script contains no NumericalInstability handling: whenever
the transfer step fails, the failure propagates and the environment step
produces no seed population at all (the run aborts), instead of skipping
transfer and seeding from random-plus-elite only.  (In the exact-arithmetic
model the regularised kernel matrix `K + lamb*I` with `lamb = 1 > 0` is always
invertible, so the inversion itself cannot fail; the reachable transfer failure
is the stacking shape mismatch.) -/
theorem full_sampling_transfer_failure_propagates (o : LAOracle) (rnd : RandOracle)
    (ndsO : List Row → List ℕ) (evalF : Row → Row) (n_var : ℕ) (xl xu : Row)
    (saved : List Row) (R : NpMat)
    (hu : npUniform xl xu 50 10 rnd.tape1 = some R)
    (ht : transfer_solutions o (select_subset saved evalF 100) R = none) :
    full_sampling o rnd ndsO evalF n_var xl xu saved = none := by
  simp only [full_sampling, hu, ht]

/-- C3 counterexample: a concrete step on which the transfer computation fails
(empty archive: `np.array([])` cannot be stacked onto the `(50, 10)` target
draw) and the step yields no seed population — transfer is not skipped, there
is no random-plus-elite fallback. -/
theorem transfer_failure_no_fallback_cex :
    transfer_solutions trivialLA (select_subset [] (fun v => v) 100)
        ⟨10, (List.range 50).map (fun i => (List.range 10).map (fun _ => (0 : ℚ)))⟩ = none
    ∧ full_sampling trivialLA trivialRand trivialNds (fun v => v) 10
        (List.replicate 10 0) (List.replicate 10 0) [] = none := by
  constructor
  · rfl
  · rfl

/-- Witness for C3's amended statement, instantiating the propagation theorem at
the concrete failing step. -/
theorem full_sampling_transfer_failure_propagates_witness :
    full_sampling trivialLA trivialRand trivialNds (fun v => v) 10
      (List.replicate 10 0) (List.replicate 10 0) [] = none :=
  full_sampling_transfer_failure_propagates trivialLA trivialRand trivialNds
    (fun v => v) 10 (List.replicate 10 0) (List.replicate 10 0) []
    ⟨10, (List.range 50).map (fun i => (List.range 10).map (fun j => trivialRand.tape1 i j))⟩
    (by rfl) (by rfl)

/-- C2 counterexample: from an empty archive (size 0) the non-initial seed
construction does not produce a population of length `population_size` — it
produces no seed population at all (`np.vstack` of the empty archive array onto
the `(50, 10)` target draw raises). -/
theorem full_sampling_empty_archive_cex :
    full_sampling trivialLA trivialRand trivialNds (fun v => v) 10
        (List.replicate 10 (-2 : ℚ)) (List.replicate 10 (2 : ℚ)) [] = none := by
  rfl

/-! ### C2: seed-population length -/

/-- C2 amended: for every non-initial step whose archive is nonempty (size 1 to
1000) with rows matching the environment's 10 decision variables, and any
bounds of length 10, the seed population handed to the optimizer has length
exactly `population_size`. -/
theorem full_sampling_length (o : LAOracle) (rnd : RandOracle) (ndsO : List Row → List ℕ)
    (evalF : Row → Row) (xl xu : Row) (saved : List Row)
    (ho : o.WF) (hr : rnd.WF) (hn : NdsWF ndsO)
    (hxl : xl.length = 10) (hw : ∀ v ∈ saved, v.length = 10)
    (h1 : 1 ≤ saved.length) (h2 : saved.length ≤ 1000) :
    ∃ M, full_sampling o rnd ndsO evalF 10 xl xu saved = some M ∧
      M.data.length = population_size := by
  obtain ⟨v, vs, rfl⟩ := List.exists_cons_of_ne_nil
    (show saved ≠ [] by intro h; rw [h] at h1; simp at h1)
  have hv10 : v.length = 10 := hw v (by simp)
  have hu1 := npUniform_eq_some xl xu 50 10 rnd.tape1 hxl
  have hscols : (select_subset (v :: vs) evalF 100).cols = 10 := by
    rw [select_subset_cols]
    simpa using hv10
  obtain ⟨T, htr, hTrows, hTcols, hTwf⟩ := fit_transform_shape o ho 10 1 (2 / 5)
    (select_subset (v :: vs) evalF 100)
    ⟨10, (List.range 50).map (fun i => (List.range 10).map (fun j => rnd.tape1 i j))⟩
    (by rw [hscols])
  have htr' : transfer_solutions o (select_subset (v :: vs) evalF 100)
      ⟨10, (List.range 50).map (fun i => (List.range 10).map (fun j => rnd.tape1 i j))⟩
      = some T := htr
  have hTcols10 : T.cols = 10 := by
    rw [hTcols]
    simp
  have hu2 := npUniform_eq_some xl xu 20 10 rnd.tape2 hxl
  have hch := hr T.data.length (min 40 T.data.length) (min_le_right _ _)
  simp only [full_sampling, hu1, htr', hu2, hTcols10, npVstack, List.headD_cons, hv10,
    if_pos, if_true, eq_self_iff_true, List.length_append, List.length_map, List.length_take,
    List.length_range, argsortDescW_length, crowding_distance_length, hch.1, population_size,
    npUniform_eq_some xl xu, hxl]
  have hcap : ¬ (100 < 40 ⊓ T.data.length + 20 + 40 ⊓ (ndsO (List.map evalF (v :: vs))).length) := by
    omega
  rw [if_neg hcap]
  refine ⟨_, rfl, ?_⟩
  simp only [List.length_append, List.length_map, List.length_take, List.length_range,
    hch.1, argsortDescW_length, crowding_distance_length]
  omega

/-- Witness for C2's amended statement at a concrete archive of size 1. -/
theorem full_sampling_length_witness :
    ∃ M, full_sampling trivialLA trivialRand trivialNds (fun w => w) 10
        (List.replicate 10 0) (List.replicate 10 0) [List.replicate 10 (0 : ℚ)] = some M ∧
      M.data.length = population_size :=
  full_sampling_length trivialLA trivialRand trivialNds (fun w => w)
    (List.replicate 10 0) (List.replicate 10 0) [List.replicate 10 (0 : ℚ)]
    trivialLA_wf trivialRand_wf trivialNds_wf (by decide) (by decide) (by decide) (by decide)

/-! ### C8: crowding-distance machinery -/

theorem argsortAsc_getD_lt (key : List ℚ) (p : ℕ) (hp : p < key.length) :
    (argsortAsc key).getD p 0 < key.length := by
  have hmem : (argsortAsc key).getD p 0 ∈ argsortAsc key := by
    rw [List.getD_eq_getElem _ _ (by rw [argsortAsc_length]; omega)]
    exact List.getElem_mem _
  exact argsortAsc_mem_lt key _ hmem

theorem argsortAsc_getD_inj (key : List ℚ) (p q : ℕ) (hp : p < key.length)
    (hq : q < key.length) (hpq : p ≠ q) :
    (argsortAsc key).getD p 0 ≠ (argsortAsc key).getD q 0 := by
  have hlen := argsortAsc_length key
  rw [List.getD_eq_getElem _ _ (by omega), List.getD_eq_getElem _ _ (by omega)]
  intro h
  exact hpq ((List.Nodup.getElem_inj_iff (argsortAsc_nodup key)).mp h)

theorem cdfold_getD_of_ne (g : ℕ → WithTop ℚ) (σ : ℕ → ℕ) :
    ∀ (ps : List ℕ) (d : List (WithTop ℚ)) (j : ℕ), (∀ i ∈ ps, σ i ≠ j) →
    (ps.foldl (fun d i => d.set (σ i) (d.getD (σ i) 0 + g i)) d).getD j 0 = d.getD j 0 := by
  intro ps
  induction ps with
  | nil => intro d j _; rfl
  | cons q ps ih =>
    intro d j hne
    rw [List.foldl_cons, ih _ _ (fun i hi => hne i (by simp [hi]))]
    exact getD_set_ne _ _ _ _ _ (hne q (by simp))

theorem cdfold_getD_update (g : ℕ → WithTop ℚ) (σ : ℕ → ℕ) :
    ∀ (ps : List ℕ) (d : List (WithTop ℚ)) (p : ℕ), ps.Nodup → p ∈ ps →
    (∀ i ∈ ps, i ≠ p → σ i ≠ σ p) → σ p < d.length →
    (ps.foldl (fun d i => d.set (σ i) (d.getD (σ i) 0 + g i)) d).getD (σ p) 0
      = d.getD (σ p) 0 + g p := by
  intro ps
  induction ps with
  | nil => intro d p _ hp; exact absurd hp (by simp)
  | cons q ps ih =>
    intro d p hnd hp hinj hlt
    rw [List.foldl_cons]
    by_cases hqp : q = p
    · subst hqp
      have hpnotin : q ∉ ps := (List.nodup_cons.mp hnd).1
      rw [cdfold_getD_of_ne g σ ps _ _
        (fun i hi => hinj i (by simp [hi]) (fun he => hpnotin (he ▸ hi)))]
      exact getD_set_self _ _ _ _ hlt
    · have hp' : p ∈ ps := by
        rcases List.mem_cons.mp hp with h | h
        · exact absurd h.symm hqp
        · exact h
      rw [ih _ p (List.nodup_cons.mp hnd).2 hp'
        (fun i hi hip => hinj i (by simp [hi]) hip) (by simpa using hlt)]
      rw [getD_set_ne _ _ _ _ _ (hinj q (by simp) hqp)]

theorem cdfold_getD_top (g : ℕ → WithTop ℚ) (σ : ℕ → ℕ) :
    ∀ (ps : List ℕ) (d : List (WithTop ℚ)) (j : ℕ), d.getD j 0 = ⊤ →
    (ps.foldl (fun d i => d.set (σ i) (d.getD (σ i) 0 + g i)) d).getD j 0 = ⊤ := by
  intro ps
  induction ps with
  | nil => intro d j h; exact h
  | cons q ps ih =>
    intro d j h
    rw [List.foldl_cons]
    apply ih
    by_cases hqj : σ q = j
    · subst hqj
      by_cases hlt : σ q < d.length
      · rw [getD_set_self _ _ _ _ hlt, h]
        exact WithTop.top_add _
      · exfalso
        rw [List.getD_eq_default _ _ (Nat.le_of_not_lt hlt)] at h
        simp at h
    · rw [getD_set_ne _ _ _ _ _ hqj]
      exact h

theorem set_top_preserves (l : List (WithTop ℚ)) (i j : ℕ) (h : l.getD j 0 = ⊤) :
    (l.set i ⊤).getD j 0 = ⊤ := by
  by_cases hij : i = j
  · subst hij
    by_cases hlt : i < l.length
    · exact getD_set_self _ _ _ _ hlt
    · exfalso
      rw [List.getD_eq_default _ _ (Nat.le_of_not_lt hlt)] at h
      simp at h
  · rw [getD_set_ne _ _ _ _ _ hij]
    exact h

theorem cd_pass_getD_extreme (key : List ℚ) (dist : List (WithTop ℚ))
    (hlen : dist.length = key.length) (hne : key ≠ []) (j : ℕ)
    (hj : j = (argsortAsc key).getD 0 0 ∨ j = (argsortAsc key).getD (key.length - 1) 0) :
    (cd_pass key dist).getD j 0 = ⊤ := by
  have hn1 : 0 < key.length := List.length_pos.mpr hne
  have hs0 : (argsortAsc key).getD 0 0 < key.length := argsortAsc_getD_lt key 0 (by omega)
  have hsl : (argsortAsc key).getD (key.length - 1) 0 < key.length :=
    argsortAsc_getD_lt key _ (by omega)
  have hd1 : (((dist.set ((argsortAsc key).getD 0 0) ⊤).set
      ((argsortAsc key).getD (key.length - 1) 0) ⊤)).getD j 0 = ⊤ := by
    rcases hj with rfl | rfl
    · apply set_top_preserves
      exact getD_set_self _ _ _ _ (by omega)
    · apply getD_set_self
      rw [List.length_set, hlen]
      exact hsl
  simp only [cd_pass]
  by_cases hrange : key.getD ((argsortAsc key).getD (key.length - 1) 0) 0
      - key.getD ((argsortAsc key).getD 0 0) 0 = 0
  · simp only [if_pos hrange]
    rw [foldl_id]
    exact hd1
  · simp only [if_neg hrange]
    rw [cdfold_getD_of_ne]
    · exact hd1
    · intro i hi
      have hmem := List.mem_range'_1.mp hi
      rcases hj with rfl | rfl
      · exact argsortAsc_getD_inj key i 0 (by omega) (by omega) (by omega)
      · exact argsortAsc_getD_inj key i (key.length - 1) (by omega) (by omega) (by omega)

theorem cd_pass_getD_top (key : List ℚ) (dist : List (WithTop ℚ)) (j : ℕ)
    (hd : dist.getD j 0 = ⊤) :
    (cd_pass key dist).getD j 0 = ⊤ := by
  have hd1 : (((dist.set ((argsortAsc key).getD 0 0) ⊤).set
      ((argsortAsc key).getD (key.length - 1) 0) ⊤)).getD j 0 = ⊤ :=
    set_top_preserves _ _ _ (set_top_preserves _ _ _ hd)
  simp only [cd_pass]
  by_cases hrange : key.getD ((argsortAsc key).getD (key.length - 1) 0) 0
      - key.getD ((argsortAsc key).getD 0 0) 0 = 0
  · simp only [if_pos hrange]
    rw [foldl_id]
    exact hd1
  · simp only [if_neg hrange]
    exact cdfold_getD_top _ _ _ _ _ hd1

theorem cd_pass_getD_interior (key : List ℚ) (dist : List (WithTop ℚ))
    (hlen : dist.length = key.length) (p : ℕ) (hp1 : 1 ≤ p) (hp2 : p + 2 ≤ key.length) :
    (cd_pass key dist).getD ((argsortAsc key).getD p 0) 0
      = dist.getD ((argsortAsc key).getD p 0) 0 + ↑(cdGapSpec key p) := by
  have hplt : p < key.length := by omega
  have hsp : (argsortAsc key).getD p 0 < key.length := argsortAsc_getD_lt key p hplt
  have hne0 : (argsortAsc key).getD p 0 ≠ (argsortAsc key).getD 0 0 :=
    argsortAsc_getD_inj key p 0 hplt (by omega) (by omega)
  have hnel : (argsortAsc key).getD p 0 ≠ (argsortAsc key).getD (key.length - 1) 0 :=
    argsortAsc_getD_inj key p (key.length - 1) hplt (by omega) (by omega)
  have hd1 : (((dist.set ((argsortAsc key).getD 0 0) ⊤).set
      ((argsortAsc key).getD (key.length - 1) 0) ⊤)).getD ((argsortAsc key).getD p 0) 0
      = dist.getD ((argsortAsc key).getD p 0) 0 := by
    rw [getD_set_ne _ _ _ _ _ (Ne.symm hnel), getD_set_ne _ _ _ _ _ (Ne.symm hne0)]
  simp only [cd_pass, cdGapSpec]
  by_cases hrange : key.getD ((argsortAsc key).getD (key.length - 1) 0) 0
      - key.getD ((argsortAsc key).getD 0 0) 0 = 0
  · simp only [if_pos hrange]
    rw [foldl_id, hd1]
    simp
  · simp only [if_neg hrange]
    rw [cdfold_getD_update _ _ _ _ p (List.nodup_range' _ _)
      (List.mem_range'_1.mpr ⟨hp1, by omega⟩)
      (fun i hi hip => argsortAsc_getD_inj key i p
        (by have := List.mem_range'_1.mp hi; omega) hplt hip)
      (by simpa using hsp.trans_le (le_of_eq hlen.symm))]
    rw [hd1]

theorem colF_length (F : List Row) (m : ℕ) : (colF F m).length = F.length := by
  simp [colF]

theorem colF_ne_nil (F : List Row) (m : ℕ) (h : F ≠ []) : colF F m ≠ [] := by
  simp [colF, h]

theorem crowding_fold_top (F : List Row) :
    ∀ (dims : List ℕ) (dist : List (WithTop ℚ)) (j : ℕ), dist.getD j 0 = ⊤ →
    (dims.foldl (fun dist m => cd_pass (colF F m) dist) dist).getD j 0 = ⊤ := by
  intro dims
  induction dims with
  | nil => intro dist j h; exact h
  | cons d dims ih =>
    intro dist j h
    rw [List.foldl_cons]
    exact ih _ _ (cd_pass_getD_top _ _ _ h)

theorem crowding_fold_extreme (F : List Row) (hne : F ≠ []) :
    ∀ (dims : List ℕ) (dist : List (WithTop ℚ)), dist.length = F.length →
    ∀ m ∈ dims, ∀ j,
    (j = (argsortCol F m).getD 0 0 ∨ j = (argsortCol F m).getD (F.length - 1) 0) →
    (dims.foldl (fun dist m => cd_pass (colF F m) dist) dist).getD j 0 = ⊤ := by
  intro dims
  induction dims with
  | nil => intro dist _ m hm; exact absurd hm (by simp)
  | cons d dims ih =>
    intro dist hlen m hm j hj
    rw [List.foldl_cons]
    by_cases hmd : m = d
    · subst hmd
      apply crowding_fold_top
      apply cd_pass_getD_extreme (colF F m) dist (by rw [hlen, colF_length])
        (colF_ne_nil F m hne)
      rwa [colF_length]
    · have hm' : m ∈ dims := by
        rcases List.mem_cons.mp hm with h | h
        · exact absurd h hmd
        · exact h
      exact ih _ (by rw [cd_pass_length, hlen]) m hm' j hj

theorem crowding_fold_interior (F : List Row) :
    ∀ (dims : List ℕ) (dist : List (WithTop ℚ)) (c : ℚ) (j : ℕ),
    dist.length = F.length → j < F.length → dist.getD j 0 = ((c : ℚ) : WithTop ℚ) →
    (∀ m ∈ dims,
      j ≠ (argsortCol F m).getD 0 0 ∧ j ≠ (argsortCol F m).getD (F.length - 1) 0) →
    (dims.foldl (fun dist m => cd_pass (colF F m) dist) dist).getD j 0
      = ((c + (dims.map (fun m => crowdingContribSpec F m j)).sum : ℚ) : WithTop ℚ) := by
  intro dims
  induction dims with
  | nil =>
    intro dist c j _ _ hc _
    simpa using hc
  | cons m dims ih =>
    intro dist c j hlen hj hc hint
    rw [List.foldl_cons]
    have hkey : (colF F m).length = F.length := colF_length F m
    have hjs : j ∈ argsortCol F m := by
      apply (argsortAsc_perm (colF F m)).mem_iff.mpr
      rw [hkey]
      exact List.mem_range.mpr hj
    have hplt : (argsortCol F m).indexOf j < (argsortCol F m).length :=
      List.indexOf_lt_length.mpr hjs
    have hgetD : (argsortCol F m).getD ((argsortCol F m).indexOf j) 0 = j := by
      rw [List.getD_eq_getElem _ _ hplt]
      exact List.getElem_indexOf hplt
    have hlenn : (argsortCol F m).length = F.length := by
      rw [argsortCol, argsortAsc_length, hkey]
    have hp0 : (argsortCol F m).indexOf j ≠ 0 := by
      intro h0
      exact (hint m (by simp)).1 (by rw [← hgetD, h0])
    have hpl : (argsortCol F m).indexOf j ≠ F.length - 1 := by
      intro h0
      exact (hint m (by simp)).2 (by rw [← hgetD, h0])
    have hint1 : 1 ≤ (argsortCol F m).indexOf j := by omega
    have hint2 : (argsortCol F m).indexOf j + 2 ≤ (colF F m).length := by
      rw [hkey]
      rw [hlenn] at hplt
      omega
    have hpass := cd_pass_getD_interior (colF F m) dist (by rw [hlen, hkey])
      ((argsortCol F m).indexOf j) hint1 hint2
    rw [show argsortAsc (colF F m) = argsortCol F m from rfl, hgetD, hc] at hpass
    have hpass' : (cd_pass (colF F m) dist).getD j 0
        = (((c + cdGapSpec (colF F m) ((argsortCol F m).indexOf j)) : ℚ) : WithTop ℚ) := by
      rw [hpass]
      norm_cast
    rw [ih (cd_pass (colF F m) dist) _ j (by rw [cd_pass_length, hlen]) hj hpass'
      (fun m' hm' => hint m' (by simp [hm']))]
    rw [List.map_cons, List.sum_cons]
    rw [show crowdingContribSpec F m j
      = cdGapSpec (colF F m) ((argsortCol F m).indexOf j) from rfl]
    ring_nf

/-- C8: in `crowding_distance`, for each objective the two extreme points of
that objective's sort order receive infinite distance (first conjunct); and
every point that is interior in every objective's sort order accumulates, over
the objectives, exactly `(next_value − previous_value) / (max − min)` with a
zero-range objective contributing nothing — the specification-side sum
`crowdingContribSpec` (second conjunct). -/
theorem crowding_distance_spec (F : List Row) (hne : F ≠ []) :
    (∀ m < (F.headD []).length,
      (crowding_distance F).getD ((argsortCol F m).getD 0 0) 0 = ⊤ ∧
      (crowding_distance F).getD ((argsortCol F m).getD (F.length - 1) 0) 0 = ⊤)
    ∧
    (∀ j < F.length,
      (∀ m < (F.headD []).length,
        j ≠ (argsortCol F m).getD 0 0 ∧ j ≠ (argsortCol F m).getD (F.length - 1) 0) →
      (crowding_distance F).getD j 0
        = ((((List.range ((F.headD []).length)).map
            (fun m => crowdingContribSpec F m j)).sum : ℚ) : WithTop ℚ)) := by
  constructor
  · intro m hm
    constructor
    · exact crowding_fold_extreme F hne (List.range _) _ (by simp) m
        (List.mem_range.mpr hm) _ (Or.inl rfl)
    · exact crowding_fold_extreme F hne (List.range _) _ (by simp) m
        (List.mem_range.mpr hm) _ (Or.inr rfl)
  · intro j hj hint
    have h0 : (List.replicate F.length (0 : WithTop ℚ)).getD j 0 = ((0 : ℚ) : WithTop ℚ) := by
      rw [List.getD_eq_getElem _ _ (by simpa using hj)]
      simp
    have h := crowding_fold_interior F (List.range ((F.headD []).length)) _ 0 j
      (by simp) hj h0 (fun m hm => hint m (List.mem_range.mp hm))
    simp only [crowding_distance]
    simpa using h

/-- Witness for C8 at the claim's 3-point front with objective values
`[0, 1, 5]` and `[5, 1, 0]`: the endpoints get infinite distance and the middle
point's distance is the finite, strictly positive value 2. -/
theorem crowding_distance_spec_witness :
    (crowding_distance [[(0 : ℚ), 5], [1, 1], [5, 0]]).getD 0 0 = ⊤ ∧
    (crowding_distance [[(0 : ℚ), 5], [1, 1], [5, 0]]).getD 2 0 = ⊤ ∧
    (crowding_distance [[(0 : ℚ), 5], [1, 1], [5, 0]]).getD 1 0 = ((2 : ℚ) : WithTop ℚ) ∧
    (0 : ℚ) < 2 := by
  have h := crowding_distance_spec [[(0 : ℚ), 5], [1, 1], [5, 0]] (by decide)
  have e0 : (argsortCol [[(0 : ℚ), 5], [1, 1], [5, 0]] 0).getD 0 0 = 0 := by decide
  have e2 : (argsortCol [[(0 : ℚ), 5], [1, 1], [5, 0]] 0).getD
      (([[(0 : ℚ), 5], [1, 1], [5, 0]] : List Row).length - 1) 0 = 2 := by decide
  have hs0 : argsortCol [[(0 : ℚ), 5], [1, 1], [5, 0]] 0 = [0, 1, 2] := by decide
  have hs1 : argsortCol [[(0 : ℚ), 5], [1, 1], [5, 0]] 1 = [2, 1, 0] := by decide
  have hc0 : colF [[(0 : ℚ), 5], [1, 1], [5, 0]] 0 = [0, 1, 5] := by decide
  have hc1 : colF [[(0 : ℚ), 5], [1, 1], [5, 0]] 1 = [5, 1, 0] := by decide
  have k0 : crowdingContribSpec [[(0 : ℚ), 5], [1, 1], [5, 0]] 0 1 = 1 := by
    rw [crowdingContribSpec, hs0, hc0]
    rw [show ([0, 1, 2] : List ℕ).indexOf 1 = 1 from by decide]
    simp only [cdGapSpec]
    rw [show argsortAsc [(0 : ℚ), 1, 5] = [0, 1, 2] from by decide]
    norm_num [List.getD_cons_zero, List.getD_cons_succ]
  have k1 : crowdingContribSpec [[(0 : ℚ), 5], [1, 1], [5, 0]] 1 1 = 1 := by
    rw [crowdingContribSpec, hs1, hc1]
    rw [show ([2, 1, 0] : List ℕ).indexOf 1 = 1 from by decide]
    simp only [cdGapSpec]
    rw [show argsortAsc [(5 : ℚ), 1, 0] = [2, 1, 0] from by decide]
    norm_num [List.getD_cons_zero, List.getD_cons_succ]
  refine ⟨?_, ?_, ?_, by norm_num⟩
  · have h1 := (h.1 0 (by decide)).1
    rwa [e0] at h1
  · have h1 := (h.1 0 (by decide)).2
    rwa [e2] at h1
  · have h1 := h.2 1 (by decide) (by decide)
    rw [h1]
    have hsum : ((List.range
        (([[(0 : ℚ), 5], [1, 1], [5, 0]] : List Row).headD []).length).map
        (fun m => crowdingContribSpec [[(0 : ℚ), 5], [1, 1], [5, 0]] m 1)).sum = 2 := by
      rw [show (List.range
        (([[(0 : ℚ), 5], [1, 1], [5, 0]] : List Row).headD []).length) = [0, 1] from by decide]
      rw [List.map_cons, List.map_cons, List.map_nil, List.sum_cons, List.sum_cons,
        List.sum_nil, k0, k1]
      norm_num
    rw [hsum]
